import Mathlib

/-!
Verification development for the hotel-matching engine of `src/hotel_checker.py`.

The embedding models, over `List Char` / `String`:
  * the text normalizers `normalize_strict`, `normalize_soft`, `normalize_address`
    (lines 27-70 of the source),
  * the similarity scorer `difflib.SequenceMatcher(None, a, b).ratio()` used at
    lines 200-201, including the `b2j` table with the autojunk purge, the
    dynamic-programming `find_longest_match`, and the recursive decomposition
    performed by `get_matching_blocks` (only the *sum* of the matched block
    sizes feeds `ratio`, so the work queue is modelled as a recursion whose
    value is that sum),
  * the classifier `HotelChecker.check` (lines 172-234): exact pass, scored
    pass with weights 0.6/0.4, thresholds 0.70 / 0.85, stable descending sort
    by `(score, score_name, score_addr)`, cap at 5 candidates.

Character-level Unicode operations are modelled on the character repertoire
that actually occurs in this development (ASCII, Georgian Mkhedruli letters,
common punctuation and quotation marks): on that repertoire `NFKC` is the
identity, `str.lower` is the ASCII case map (Georgian Mkhedruli is caseless),
and the whitespace class of `str.strip` / `\s` is the ASCII whitespace set.
Python floats are modelled by exact rationals.
-/

/-- Whitespace as recognised by Python `str.strip()` and the regex class
latin-range part of `\s` (the Unicode spaces outside this set do not occur in
this development). -/
def isPySpace (c : Char) : Bool :=
  c == ' ' || c == '\t' || c == '\n' || c == '\r' || c == '\x0b' || c == '\x0c'

/-- Georgian letters, the range `Ⴀ-ჿ` of the source (line 27). -/
def isGeorgianChar (c : Char) : Bool :=
  decide (0x10A0 ≤ c.toNat) && decide (c.toNat ≤ 0x10FF)

/-- Python regex `\w` on `str`: ASCII alphanumerics, the underscore, and any
other Unicode word character; restricted to the repertoire of this development
that is ASCII alphanumerics, the underscore, and Georgian letters. -/
def pyIsWordChar (c : Char) : Bool :=
  c.isAlphanum || c == '_' || isGeorgianChar c

/-- Python `str.lower`, which on the repertoire here is the ASCII case map
(Georgian Mkhedruli has no case). -/
def pyLowerChar (c : Char) : Char :=
  if decide ('A' ≤ c) && decide (c ≤ 'Z') then Char.ofNat (c.toNat + 32) else c

/-- Model of `unicodedata.normalize("NFKC", ·)` at character level: NFKC is the
identity on ASCII, Georgian letters and the punctuation appearing here. -/
def nfkcChar (c : Char) : Char := c

/-- Python `str.strip()`: drop leading and trailing whitespace. -/
def pyStrip (l : List Char) : List Char :=
  ((l.dropWhile isPySpace).reverse.dropWhile isPySpace).reverse

/-- Helper for `collapseWS`: the flag records whether the scan is inside a
whitespace run whose single replacement space has already been emitted. -/
def collapseWSAux : Bool → List Char → List Char
  | _, [] => []
  | inRun, c :: t =>
    if isPySpace c then
      if inRun then collapseWSAux true t else ' ' :: collapseWSAux true t
    else c :: collapseWSAux false t

/-- Model of `re.sub(r"\s+", " ", s)`: each maximal run of whitespace becomes a
single space. -/
def collapseWS (l : List Char) : List Char := collapseWSAux false l

/-- Source `_clean_punct_keep_words` (lines 32-39): every character outside
`\w`, the Georgian range, and the space becomes a space (replacing each maximal
run of such characters by one space, as `re.sub` with `+` does, yields the same
result after the subsequent whitespace collapse as the character-wise map used
here), then whitespace runs collapse to one space and the ends are stripped. -/
def cleanPunctKeepWords (l : List Char) : List Char :=
  pyStrip (collapseWS (l.map (fun c => if pyIsWordChar c || c == ' ' then c else ' ')))

/-- The five quotation characters removed by `normalize_strict` (line 45); the
source applies five successive `str.replace(·, "")` calls whose patterns are
distinct single characters, which equals filtering those characters out. -/
def isStripQuote (c : Char) : Bool :=
  c == '“' || c == '”' || c == '"' || c == '’' || c == '\''

/-- Source `normalize_strict` (lines 41-47): NFKC, lower, strip, remove the
five quotation characters, then `_clean_punct_keep_words`. -/
def normalize_strict (s : String) : String :=
  ⟨cleanPunctKeepWords
    ((pyStrip ((s.data.map nfkcChar).map pyLowerChar)).filter (fun c => !isStripQuote c))⟩

/-- Source `normalize_soft` (lines 49-53): NFKC, lower, strip, collapse
whitespace runs. -/
def normalize_soft (s : String) : String :=
  ⟨collapseWS (pyStrip ((s.data.map nfkcChar).map pyLowerChar))⟩

/-- Helper for `pyReplace`: the scan consumes at least one character per step,
so any fuel of at least the length of the scanned list yields the real
replacement scan (`pyReplaceF_fuel` below). -/
def pyReplaceF (p : Char) (ps rep : List Char) : Nat → List Char → List Char
  | 0, l => l
  | _, [] => []
  | fuel + 1, c :: t =>
    if (p :: ps).isPrefixOf (c :: t) then rep ++ pyReplaceF p ps rep fuel (t.drop ps.length)
    else c :: pyReplaceF p ps rep fuel t

/-- Python `str.replace` with the non-empty pattern `p :: ps`: scan left to
right, replacing each non-overlapping occurrence by `rep`. -/
def pyReplace (p : Char) (ps rep l : List Char) : List Char :=
  pyReplaceF p ps rep l.length l

/-- String version of `pyReplace`; the patterns used by the source are never
empty (Python would behave differently on an empty pattern). -/
def pyReplaceStr (s pat rep : String) : String :=
  match pat.data with
  | [] => s
  | p :: ps => ⟨pyReplace p ps rep.data s.data⟩

/-- Source `_ADDR_EQUIV` (lines 57-64), in Python dict insertion order. -/
def addrEquiv : List (String × String) :=
  [("ქ.", "ქუჩა"),
   ("ქ ", "ქუჩა "),
   ("ქუჩ", "ქუჩა"),
   ("გამზ.", "გამზირი"),
   ("აღმაშენებლის გამზ.", "აღმაშენებლის გამზირი"),
   ("გზატკეცილი", "გზატკეცილი")]

/-- Source `normalize_address` (lines 66-70): `normalize_strict`, then the
`_ADDR_EQUIV` replacements in order. -/
def normalize_address (s : String) : String :=
  addrEquiv.foldl (fun acc kv => pyReplaceStr acc kv.1 kv.2) (normalize_strict s)

/-! The similarity scorer: `difflib.SequenceMatcher(None, a, b).ratio()`.
The source constructs the matcher with `isjunk = None`, so the junk set
`bjunk` is always empty: the two junk-extension loops of `find_longest_match`
never fire and are not modelled; the two non-junk extension loops are. The
autojunk purge of popular elements (active only for `b` of length at least
200) is modelled in `b2j`. -/

/-- Number of occurrences of a character in `b`. -/
def countOcc (b : List Char) (ch : Char) : Nat :=
  (b.filter (fun x => x == ch)).length

/-- The ascending list of indices of `ch` in `b` (a `b2j` entry before the
autojunk purge). -/
def b2jAll (b : List Char) (ch : Char) : List Nat :=
  (List.range b.length).filter (fun j => b.getD j ' ' == ch)

/-- The autojunk rule of `SequenceMatcher.__chain_b`: for `b` of length at
least 200, elements occurring in more than one percent of `b` are purged. -/
def isPopular (b : List Char) (ch : Char) : Bool :=
  decide (200 ≤ b.length) && decide (b.length / 100 + 1 < countOcc b ch)

/-- The `b2j` table: indices of `ch` in `b`, with popular elements purged. -/
def b2j (b : List Char) (ch : Char) : List Nat :=
  if isPopular b ch then [] else b2jAll b ch

/-- Lookup in the `j2len` dictionary (association list), defaulting to 0. -/
def lookupJ (m : List (Nat × Nat)) (j : Nat) : Nat :=
  match m.find? (fun e => e.1 == j) with
  | some e => e.2
  | none => 0

/-- Inner loop of `find_longest_match` for one row `i`: fold over the indices
`js` of `a[i]` in `b` (already restricted to `blo ≤ j < bhi`, which matches the
`continue`/`break` on the ascending index list), building the fresh `newj2len`
dictionary from the previous row `old` and updating the best block; the Python
`j2len.get(j-1, 0)` misses for `j = 0` since `-1` is never a key. -/
def flmStep (i : Nat) (old : List (Nat × Nat)) (js : List Nat)
    (best : Nat × Nat × Nat) : List (Nat × Nat) × (Nat × Nat × Nat) :=
  js.foldl
    (fun st j =>
      let k := (if j == 0 then 0 else lookupJ old (j - 1)) + 1
      let b2 := if st.2.2.2 < k then (i + 1 - k, j + 1 - k, k) else st.2
      ((j, k) :: st.1, b2))
    ([], best)

/-- Equality of `a[i]` and `b[j]` with both indices in range. -/
def charsEq (a b : List Char) (i j : Nat) : Bool :=
  match a.get? i, b.get? j with
  | some x, some y => x == y
  | _, _ => false

/-- Helper for `extLeft`: each iteration lowers `besti` by one and requires
`alo < besti`, so the fuel `besti` supplied by `extLeft` runs the loop to
completion. -/
def extLeftF (a b : List Char) (alo blo : Nat) : Nat → Nat → Nat → Nat
  | 0, _, _ => 0
  | fuel + 1, besti, bestj =>
    if decide (alo < besti) && decide (blo < bestj) && charsEq a b (besti - 1) (bestj - 1) then
      1 + extLeftF a b alo blo fuel (besti - 1) (bestj - 1)
    else 0

/-- First extension loop of `find_longest_match`: grow the best block to the
left over equal characters (the junk test is vacuous with `isjunk = None`).
Returns the number of steps. -/
def extLeft (a b : List Char) (alo blo besti bestj : Nat) : Nat :=
  extLeftF a b alo blo besti besti bestj

/-- Helper for `extRight`: each iteration raises `bestsize` by one and
requires `besti + bestsize < ahi`, so the fuel `ahi - (besti + bestsize)`
supplied by `extRight` runs the loop to completion. -/
def extRightF (a b : List Char) (ahi bhi besti bestj : Nat) : Nat → Nat → Nat
  | 0, _ => 0
  | fuel + 1, bestsize =>
    if decide (besti + bestsize < ahi) && decide (bestj + bestsize < bhi) &&
        charsEq a b (besti + bestsize) (bestj + bestsize) then
      1 + extRightF a b ahi bhi besti bestj fuel (bestsize + 1)
    else 0

/-- Second extension loop of `find_longest_match`: grow the best block to the
right over equal characters. Returns the number of steps. -/
def extRight (a b : List Char) (ahi bhi besti bestj bestsize : Nat) : Nat :=
  extRightF a b ahi bhi besti bestj (ahi - (besti + bestsize)) bestsize

/-- `SequenceMatcher.find_longest_match` on the window
`a[alo:ahi] × b[blo:bhi]`: the dynamic-programming sweep (rows `i` ascending,
indices `j` ascending, strict improvement only, so ties keep the earliest
`(i, j)` exactly as in Python), then the two extension loops. -/
def flm (a b : List Char) (alo ahi blo bhi : Nat) : Nat × Nat × Nat :=
  let run :=
    (List.range' alo (ahi - alo)).foldl
      (fun st i =>
        let js := (b2j b (a.getD i ' ')).filter (fun j => decide (blo ≤ j) && decide (j < bhi))
        flmStep i st.1 js st.2)
      ([], (alo, blo, 0))
  let best := run.2
  let dl := extLeft a b alo blo best.1 best.2.1
  let besti := best.1 - dl
  let bestj := best.2.1 - dl
  let size := best.2.2 + dl
  let dr := extRight a b ahi bhi besti bestj size
  (besti, bestj, size + dr)

/-- Sum of the matched block sizes produced by `get_matching_blocks` on a
window: the source processes a work queue of disjoint subwindows, splitting
each around its longest match; only the sum of the block sizes reaches
`ratio()`, and that sum satisfies this recursion. Each split strictly shrinks
the window, so the fuel `a.length + b.length + 1` supplied by
`smTotalMatches` is never exhausted. -/
def smMatchesF : Nat → List Char → List Char → Nat → Nat → Nat → Nat → Nat
  | 0, _, _, _, _, _, _ => 0
  | fuel + 1, a, b, alo, ahi, blo, bhi =>
    let m := flm a b alo ahi blo bhi
    let i := m.1
    let j := m.2.1
    let k := m.2.2
    if k == 0 then 0
    else
      k + (if alo < i && blo < j then smMatchesF fuel a b alo i blo j else 0)
        + (if i + k < ahi && j + k < bhi then smMatchesF fuel a b (i + k) ahi (j + k) bhi else 0)

/-- Total number of matched elements reported by `get_matching_blocks`. -/
def smTotalMatches (a b : List Char) : Nat :=
  smMatchesF (a.length + b.length + 1) a b 0 a.length 0 b.length

/-- `SequenceMatcher.ratio()`: `2 * M / T`, and by `difflib._calculate_ratio`
the value `1.0` when `T = 0` (two empty sequences). -/
def smScore (a b : List Char) : ℚ :=
  if a.length + b.length = 0 then 1
  else (2 * (smTotalMatches a b : ℚ)) / ((a.length + b.length : Nat) : ℚ)

/-- The scorer on strings, argument order as in the source:
`SequenceMatcher(None, a, b).ratio()`. -/
def smScoreStr (a b : String) : ℚ := smScore a.data b.data

/-- Python `round(q, 4)` modelled over exact rationals: round half to even at
the fourth decimal. -/
def pyRound4 (q : ℚ) : ℚ :=
  let y : ℚ := q * 10000
  let n : ℤ := ⌊y⌋
  let r : ℚ := y - (n : ℚ)
  let m : ℤ :=
    if r < 1 / 2 then n
    else if 1 / 2 < r then n + 1
    else if n % 2 = 0 then n else n + 1
  (m : ℚ) / 10000

/-! The matching engine `HotelChecker.check`. The candidate rows are the
cached tuples `(name_raw, addr_raw, comment_raw, row_dict)` of `self._rows`;
the dictionary payload is the row itself here, so `exact_row` carries the
matched record. -/

/-- One cached candidate row (name, address, comment as read from the sheet). -/
structure Row where
  name : String
  addr : String
  comment : String
deriving DecidableEq

/-- One entry of the `candidates` list built by the scored pass (the dict of
lines 210-217). -/
structure Cand where
  hotel_name : String
  address : String
  comment : String
  score : ℚ
  score_name : ℚ
  score_addr : ℚ
deriving DecidableEq

/-- The dictionary returned by `check` (lines 172-181). -/
structure CheckResult where
  status : String
  exact_row : Option Row
  candidates : List Cand
deriving DecidableEq

/-- Python `str.strip()` on strings. -/
def pyStripStr (s : String) : String := ⟨pyStrip s.data⟩

/-- Line 200: `SequenceMatcher(None, normalize_soft(nm), normalize_soft(name_in)).ratio()`. -/
def nameSim (nameIn : String) (r : Row) : ℚ :=
  smScoreStr (normalize_soft r.name) (normalize_soft nameIn)

/-- Line 201: `SequenceMatcher(None, normalize_soft(ad), normalize_soft(addr_in)).ratio()`. -/
def addrSim (addrIn : String) (r : Row) : ℚ :=
  smScoreStr (normalize_soft r.addr) (normalize_soft addrIn)

/-- Line 204: `round(name_sim * 0.6 + addr_sim * 0.4, 4)`. -/
def combinedScore (nameIn addrIn : String) (r : Row) : ℚ :=
  pyRound4 (nameSim nameIn r * 0.6 + addrSim addrIn r * 0.4)

/-- Line 209: the candidacy filter
`score >= 0.70 or name_sim >= 0.85 or addr_sim >= 0.85`. -/
def qualifies (nameIn addrIn : String) (r : Row) : Bool :=
  decide (0.70 ≤ combinedScore nameIn addrIn r) ||
  decide (0.85 ≤ nameSim nameIn r) ||
  decide (0.85 ≤ addrSim addrIn r)

/-- Lines 210-217: the candidate dict appended for a qualifying row. -/
def mkCand (nameIn addrIn : String) (r : Row) : Cand :=
  ⟨pyStripStr r.name, pyStripStr r.addr, pyStripStr r.comment,
   combinedScore nameIn addrIn r,
   pyRound4 (nameSim nameIn r),
   pyRound4 (addrSim addrIn r)⟩

/-- Lines 198-217: the `cands` list of the scored pass, in row order. -/
def scoredCands (nameIn addrIn : String) (rows : List Row) : List Cand :=
  rows.filterMap (fun r => if qualifies nameIn addrIn r then some (mkCand nameIn addrIn r) else none)

/-- Sort key of line 219 viewed lexicographically. -/
def candKey (c : Cand) : Lex (ℚ × Lex (ℚ × ℚ)) :=
  toLex (c.score, toLex (c.score_name, c.score_addr))

/-- Comparison realising `cands.sort(key=..., reverse=True)`: `c` may precede
`d` when the key of `d` is at most the key of `c` (descending). -/
def candBefore (c d : Cand) : Prop := candKey d ≤ candKey c

instance : DecidableRel candBefore :=
  fun c d => inferInstanceAs (Decidable (candKey d ≤ candKey c))

instance : IsTotal Cand candBefore :=
  ⟨fun c d => le_total (candKey d) (candKey c)⟩

instance : IsTrans Cand candBefore :=
  ⟨fun _ _ _ hab hbc => le_trans hbc hab⟩

/-- The exact-pass test of line 190 for one row. -/
def exactPred (nameNorm addrNorm : String) (r : Row) : Bool :=
  normalize_strict r.name == nameNorm && normalize_address r.addr == addrNorm

/-- Source `HotelChecker.check` (lines 172-234). The exact pass returns the
first matching row; otherwise the scored pass filters, sorts descending by
`(score, score_name, score_addr)` with Python's stable sort (insertion sort
with the reflexive descending comparison is stable and therefore produces the
same list), caps at 5 and classifies. -/
def check (nameIn addrIn : String) (rows : List Row) : CheckResult :=
  match rows.find? (exactPred (normalize_strict nameIn) (normalize_address addrIn)) with
  | some r => ⟨"exact", some r, []⟩
  | none =>
    let capped := (List.insertionSort candBefore (scoredCands nameIn addrIn rows)).take 5
    if capped.isEmpty then ⟨"none", none, []⟩
    else ⟨"similar", none, capped⟩

/-! Claim theorems. -/

/-- C2: evaluation of the scorer at the failing input. The engine's similarity
scorer (difflib with its default `_calculate_ratio`) maps two empty strings to
similarity 1, not 0: an empty query field counts as a perfect match against an
empty record field, contrary to the claim. -/
theorem claim2_empty_similarity_eval :
    smScoreStr "" "" = 1 ∧ smScoreStr "" "" ≠ 0 := by
  decide

/-- C7: evaluation of `normalize_strict` at the failing input. The regex class
is built on `\w`, which keeps the underscore (a connector-punctuation
character), so `normalize_strict` does not remove all punctuation and its
output is not restricted to Latin letters, digits, Georgian letters and
spaces, contrary to the claim and to the function's own comment. -/
theorem claim7_underscore_eval :
    normalize_strict "_" = "_" ∧ normalize_strict "" = "" := by
  decide

/-- C8 counterexample: the similarity score of the engine is not symmetric:
for the normalized strings "aba" and "babba" (both fixed points of
`normalize_soft`) the two orders give 3/4 and 1/2. -/
theorem claim8_symmetry_counterexample :
    smScoreStr "aba" "babba" = 3 / 4 ∧ smScoreStr "babba" "aba" = 1 / 2 ∧
    smScoreStr "aba" "babba" ≠ smScoreStr "babba" "aba" := by
  have h1 : smTotalMatches "aba".data "babba".data = 3 := by decide
  have h2 : smTotalMatches "babba".data "aba".data = 2 := by decide
  have hl1 : "aba".data.length + "babba".data.length = 8 := by decide
  have hl2 : "babba".data.length + "aba".data.length = 8 := by decide
  have e1 : smScoreStr "aba" "babba" = 3 / 4 := by
    unfold smScoreStr smScore
    rw [hl1, h1]
    norm_num
  have e2 : smScoreStr "babba" "aba" = 1 / 2 := by
    unfold smScoreStr smScore
    rw [hl2, h2]
    norm_num
  refine ⟨e1, e2, ?_⟩
  rw [e1, e2]
  norm_num

/-- C9 counterexample: when the street abbreviation ends the address, the two
spellings normalize differently: `normalize_address` sends "ქ." to "ქ" but
"ქუჩა" to "ქუჩაა" (the "ქ " rule needs a following space, and the "ქუჩ" rule
then appends a vowel to the full word). -/
theorem claim9_abbrev_counterexample :
    normalize_address "ქ." = "ქ" ∧ normalize_address "ქუჩა" = "ქუჩაა" ∧
    normalize_address "ქ." ≠ normalize_address "ქუჩა" := by
  decide

/-- C3 counterexample: an empty query does not always yield the NoMatch
result: against a candidate row whose name and address normalize to the empty
string (here name ".", address "-") the exact pass fires and `check` returns
status "exact". -/
theorem claim3_empty_query_counterexample :
    (check "" "" [⟨".", "-", ""⟩]).status = "exact" ∧
    (check "" "" [⟨".", "-", ""⟩]).status ≠ "none" := by
  decide

/-- Unfolding of the lexicographic comparison used by the sort. -/
theorem candBefore_imp (c d : Cand) (h : candBefore c d) :
    d.score < c.score ∨ (d.score = c.score ∧ (d.score_name < c.score_name ∨
      (d.score_name = c.score_name ∧ d.score_addr ≤ c.score_addr))) := by
  unfold candBefore candKey at h
  rcases (Prod.Lex.le_iff _ _).mp h with h1 | ⟨h1, h2⟩
  · exact Or.inl h1
  · refine Or.inr ⟨h1, ?_⟩
    rcases (Prod.Lex.le_iff _ _).mp h2 with h3 | ⟨h3, h4⟩
    · exact Or.inl h3
    · exact Or.inr ⟨h3, h4⟩

/-- C5: in every result the candidates list is sorted in non-increasing order
of `score` (combined score), with ties broken by `score_name` and then
`score_addr`: each later entry relates to each earlier entry by descending
lexicographic order on the triple. -/
theorem claim5_candidates_sorted (nameIn addrIn : String) (rows : List Row) :
    (check nameIn addrIn rows).candidates.Pairwise (fun c d =>
      d.score < c.score ∨ (d.score = c.score ∧ (d.score_name < c.score_name ∨
        (d.score_name = c.score_name ∧ d.score_addr ≤ c.score_addr)))) := by
  unfold check
  split
  · simp
  · dsimp only
    split
    · simp
    · have hs : (List.insertionSort candBefore (scoredCands nameIn addrIn rows)).Pairwise candBefore :=
        List.sorted_insertionSort candBefore _
      have ht : ((List.insertionSort candBefore (scoredCands nameIn addrIn rows)).take 5).Pairwise candBefore :=
        List.Pairwise.sublist (List.take_sublist _ _) hs
      exact ht.imp (fun h => candBefore_imp _ _ h)

/-- C6: a result of `check` never carries more than 5 candidates, even when
more rows pass the candidacy filter. -/
theorem claim6_cap_five (nameIn addrIn : String) (rows : List Row) :
    (check nameIn addrIn rows).candidates.length ≤ 5 := by
  unfold check
  split
  · simp
  · dsimp only
    split
    · simp
    · simp [List.length_take]

/-- C10: every result of `check` carries one of the three statuses with a
consistent payload: "exact" references a row of the candidate set whose
normalized name and address literally equal the normalized query (so a high
similarity score alone never produces "exact") and has no candidates;
"similar" has no exact row and a non-empty candidates list; "none" has no
exact row and no candidates. -/
theorem claim10_result_invariants (nameIn addrIn : String) (rows : List Row) :
    ((check nameIn addrIn rows).status = "exact" ∨ (check nameIn addrIn rows).status = "similar" ∨
      (check nameIn addrIn rows).status = "none") ∧
    ((check nameIn addrIn rows).status = "exact" →
      ∃ r, (check nameIn addrIn rows).exact_row = some r ∧ r ∈ rows ∧
        normalize_strict r.name = normalize_strict nameIn ∧
        normalize_address r.addr = normalize_address addrIn ∧
        (check nameIn addrIn rows).candidates = []) ∧
    ((check nameIn addrIn rows).status = "similar" →
      (check nameIn addrIn rows).exact_row = none ∧ (check nameIn addrIn rows).candidates ≠ []) ∧
    ((check nameIn addrIn rows).status = "none" →
      (check nameIn addrIn rows).exact_row = none ∧ (check nameIn addrIn rows).candidates = []) := by
  rcases hf : rows.find? (exactPred (normalize_strict nameIn) (normalize_address addrIn)) with _ | r
  · have hck : check nameIn addrIn rows =
        (if ((List.insertionSort candBefore (scoredCands nameIn addrIn rows)).take 5).isEmpty
          then ⟨"none", none, []⟩
          else ⟨"similar", none,
            (List.insertionSort candBefore (scoredCands nameIn addrIn rows)).take 5⟩ : CheckResult) := by
      unfold check
      rw [hf]
    by_cases hc : ((List.insertionSort candBefore (scoredCands nameIn addrIn rows)).take 5).isEmpty
    · rw [hck, if_pos hc]
      refine ⟨Or.inr (Or.inr rfl), fun h => by simp at h,
        fun h => by simp at h, fun _ => ⟨rfl, rfl⟩⟩
    · rw [hck, if_neg hc]
      refine ⟨Or.inr (Or.inl rfl), fun h => by simp at h, fun _ => ⟨rfl, ?_⟩,
        fun h => by simp at h⟩
      simpa [List.isEmpty_iff] using hc
  · have hck : check nameIn addrIn rows = ⟨"exact", some r, []⟩ := by
      unfold check
      rw [hf]
    have hp := List.find?_some hf
    have hm := List.mem_of_find?_eq_some hf
    unfold exactPred at hp
    rw [Bool.and_eq_true, beq_iff_eq, beq_iff_eq] at hp
    rw [hck]
    exact ⟨Or.inl rfl, fun _ => ⟨r, rfl, hm, hp.1, hp.2, rfl⟩,
      fun h => by simp at h, fun h => by simp at h⟩

/-- Witness for C10 at a concrete input (empty candidate set, status "none"). -/
theorem claim10_result_invariants_witness :
    (check "x" "y" []).exact_row = none ∧ (check "x" "y" []).candidates = [] :=
  (claim10_result_invariants "x" "y" []).2.2.2 (by decide)

/-- C1: if the candidate list contains a record whose strict-normalized name
equals the strict-normalized query name and whose address-normalized address
equals the address-normalized query address, `check` returns status "exact"
referencing the first such record in list order (the record `List.find?`
returns), with an empty candidates list and no scored candidates. -/
theorem claim1_exact_precedence (nameIn addrIn : String) (rows : List Row)
    (h : ∃ r ∈ rows, exactPred (normalize_strict nameIn) (normalize_address addrIn) r = true) :
    ∃ r, rows.find? (exactPred (normalize_strict nameIn) (normalize_address addrIn)) = some r ∧
      check nameIn addrIn rows = ⟨"exact", some r, []⟩ := by
  obtain ⟨r0, hr0, hp0⟩ := h
  have hs : (rows.find? (exactPred (normalize_strict nameIn) (normalize_address addrIn))).isSome := by
    rw [List.find?_isSome]
    exact ⟨r0, hr0, hp0⟩
  obtain ⟨r, hr⟩ := Option.isSome_iff_exists.mp hs
  refine ⟨r, hr, ?_⟩
  unfold check
  rw [hr]

/-- Witness for C1: a query matching a stored row up to case, spacing and the
street abbreviation returns exactly that stored row. -/
theorem claim1_exact_precedence_witness :
    check "hotel   blu" "ხიმშიაშვილის ქუჩა 1" [(⟨"Hotel Blu", "ხიმშიაშვილის ქ. 1", "done"⟩ : Row)] =
      ⟨"exact", some ⟨"Hotel Blu", "ხიმშიაშვილის ქ. 1", "done"⟩, []⟩ := by
  have hf : [(⟨"Hotel Blu", "ხიმშიაშვილის ქ. 1", "done"⟩ : Row)].find?
      (exactPred (normalize_strict "hotel   blu") (normalize_address "ხიმშიაშვილის ქუჩა 1")) =
      some ⟨"Hotel Blu", "ხიმშიაშვილის ქ. 1", "done"⟩ := by decide
  obtain ⟨r, hr, hck⟩ := claim1_exact_precedence "hotel   blu" "ხიმშიაშვილის ქუჩა 1"
    [(⟨"Hotel Blu", "ხიმშიაშვილის ქ. 1", "done"⟩ : Row)] (by decide)
  rw [hf] at hr
  injection hr with h
  rw [← h] at hck
  exact hck

/-- Reduction of `pyRound4` when the scaled value is an integer (the only
case arising in the concrete evaluations of this development). -/
theorem pyRound4_eq_of_mul (q : ℚ) (z : ℤ) (h : q * 10000 = (z : ℚ)) :
    pyRound4 q = (z : ℚ) / 10000 := by
  unfold pyRound4
  dsimp only
  rw [h, Int.floor_intCast]
  norm_num

set_option maxRecDepth 4000 in
/-- C4: a row enters the scored pass's candidate set if and only if
`combinedScore >= 0.70` or `nameScore >= 0.85` or `addressScore >= 0.85`
(`scoredCands` is the filter of the rows by that disjunction, mapped to
candidate entries); in particular a row scoring `0.9` on name and `0.1` on
address (combined `0.58`) qualifies, while one scoring `0.5` on both does
not. -/
theorem claim4_candidacy_filter :
    (∀ (nameIn addrIn : String) (rows : List Row),
      scoredCands nameIn addrIn rows =
        (rows.filter (fun r =>
          decide (0.70 ≤ combinedScore nameIn addrIn r) ||
          decide (0.85 ≤ nameSim nameIn r) ||
          decide (0.85 ≤ addrSim addrIn r))).map (mkCand nameIn addrIn)) ∧
    nameSim "abcdefghij" ⟨"abcdefghix", "abbbbbbbbb", ""⟩ = 9 / 10 ∧
    addrSim "aaaaaaaaaa" ⟨"abcdefghix", "abbbbbbbbb", ""⟩ = 1 / 10 ∧
    combinedScore "abcdefghij" "aaaaaaaaaa" ⟨"abcdefghix", "abbbbbbbbb", ""⟩ = 29 / 50 ∧
    nameSim "abcdefghij" ⟨"abcdexxxxx", "aaaaabbbbb", ""⟩ = 1 / 2 ∧
    addrSim "aaaaaaaaaa" ⟨"abcdexxxxx", "aaaaabbbbb", ""⟩ = 1 / 2 ∧
    scoredCands "abcdefghij" "aaaaaaaaaa"
        [⟨"abcdefghix", "abbbbbbbbb", ""⟩, ⟨"abcdexxxxx", "aaaaabbbbb", ""⟩] =
      [mkCand "abcdefghij" "aaaaaaaaaa" ⟨"abcdefghix", "abbbbbbbbb", ""⟩] := by
  have hpart1 : ∀ (nameIn addrIn : String) (rows : List Row),
      scoredCands nameIn addrIn rows =
        (rows.filter (fun r =>
          decide (0.70 ≤ combinedScore nameIn addrIn r) ||
          decide (0.85 ≤ nameSim nameIn r) ||
          decide (0.85 ≤ addrSim addrIn r))).map (mkCand nameIn addrIn) := by
    intro nameIn addrIn rows
    have hpred : (fun r => decide (0.70 ≤ combinedScore nameIn addrIn r) ||
        decide (0.85 ≤ nameSim nameIn r) || decide (0.85 ≤ addrSim addrIn r)) =
        qualifies nameIn addrIn := rfl
    rw [hpred]
    induction rows with
    | nil => rfl
    | cons r t ih =>
      simp only [scoredCands] at ih ⊢
      rw [List.filterMap_cons, List.filter_cons]
      cases hq : qualifies nameIn addrIn r with
      | true => simp [hq, ih]
      | false => simp [hq, ih]
  have e1 : nameSim "abcdefghij" ⟨"abcdefghix", "abbbbbbbbb", ""⟩ = 9 / 10 := by
    have hM : smTotalMatches (normalize_soft "abcdefghix").data (normalize_soft "abcdefghij").data = 9 := by
      decide
    have hL : (normalize_soft "abcdefghix").data.length + (normalize_soft "abcdefghij").data.length = 20 := by
      decide
    unfold nameSim smScoreStr smScore
    dsimp only
    rw [hL, hM]
    norm_num
  have e2 : addrSim "aaaaaaaaaa" ⟨"abcdefghix", "abbbbbbbbb", ""⟩ = 1 / 10 := by
    have hM : smTotalMatches (normalize_soft "abbbbbbbbb").data (normalize_soft "aaaaaaaaaa").data = 1 := by
      decide
    have hL : (normalize_soft "abbbbbbbbb").data.length + (normalize_soft "aaaaaaaaaa").data.length = 20 := by
      decide
    unfold addrSim smScoreStr smScore
    dsimp only
    rw [hL, hM]
    norm_num
  have e3 : combinedScore "abcdefghij" "aaaaaaaaaa" ⟨"abcdefghix", "abbbbbbbbb", ""⟩ = 29 / 50 := by
    unfold combinedScore
    rw [e1, e2]
    have h : ((9 : ℚ) / 10 * 0.6 + 1 / 10 * 0.4) * 10000 = ((5800 : ℤ) : ℚ) := by norm_num
    rw [pyRound4_eq_of_mul _ _ h]
    norm_num
  have e4 : nameSim "abcdefghij" ⟨"abcdexxxxx", "aaaaabbbbb", ""⟩ = 1 / 2 := by
    have hM : smTotalMatches (normalize_soft "abcdexxxxx").data (normalize_soft "abcdefghij").data = 5 := by
      decide
    have hL : (normalize_soft "abcdexxxxx").data.length + (normalize_soft "abcdefghij").data.length = 20 := by
      decide
    unfold nameSim smScoreStr smScore
    dsimp only
    rw [hL, hM]
    norm_num
  have e5 : addrSim "aaaaaaaaaa" ⟨"abcdexxxxx", "aaaaabbbbb", ""⟩ = 1 / 2 := by
    have hM : smTotalMatches (normalize_soft "aaaaabbbbb").data (normalize_soft "aaaaaaaaaa").data = 5 := by
      decide
    have hL : (normalize_soft "aaaaabbbbb").data.length + (normalize_soft "aaaaaaaaaa").data.length = 20 := by
      decide
    unfold addrSim smScoreStr smScore
    dsimp only
    rw [hL, hM]
    norm_num
  have e6 : combinedScore "abcdefghij" "aaaaaaaaaa" ⟨"abcdexxxxx", "aaaaabbbbb", ""⟩ = 1 / 2 := by
    unfold combinedScore
    rw [e4, e5]
    have h : ((1 : ℚ) / 2 * 0.6 + 1 / 2 * 0.4) * 10000 = ((5000 : ℤ) : ℚ) := by norm_num
    rw [pyRound4_eq_of_mul _ _ h]
    norm_num
  have q1 : qualifies "abcdefghij" "aaaaaaaaaa" ⟨"abcdefghix", "abbbbbbbbb", ""⟩ = true := by
    unfold qualifies
    rw [e1, e2, e3]
    simp only [Bool.or_eq_true, decide_eq_true_eq]
    norm_num
  have q2 : qualifies "abcdefghij" "aaaaaaaaaa" ⟨"abcdexxxxx", "aaaaabbbbb", ""⟩ = false := by
    unfold qualifies
    rw [e4, e5, e6]
    simp only [Bool.or_eq_false_iff, decide_eq_false_iff_not]
    norm_num
  refine ⟨hpart1, e1, e2, e3, e4, e5, ?_⟩
  simp [scoredCands, List.filterMap_cons, q1, q2]

/-- Strings with equal character data are equal. -/
theorem string_eq_of_data_eq {s t : String} (h : s.data = t.data) : s = t := by
  cases s
  cases t
  exact congrArg String.mk (by simpa using h)

/-- Index-equality against an empty second sequence is always false. -/
theorem charsEq_nil_right (a : List Char) (i j : Nat) : charsEq a [] i j = false := by
  unfold charsEq
  cases h : a.get? i <;> simp

/-- Index-equality against an empty first sequence is always false. -/
theorem charsEq_nil_left (b : List Char) (i j : Nat) : charsEq [] b i j = false := by
  unfold charsEq
  simp

/-- With an empty `b`, `find_longest_match` finds nothing. -/
theorem flm_nil_right (a : List Char) (alo ahi blo bhi : Nat) :
    flm a [] alo ahi blo bhi = (alo, blo, 0) := by
  unfold flm
  have hfold : ∀ (L : List Nat) (st : List (Nat × Nat) × (Nat × Nat × Nat)),
      (L.foldl (fun st i =>
        flmStep i st.1 ((b2j ([] : List Char) (a.getD i ' ')).filter
          (fun j => decide (blo ≤ j) && decide (j < bhi))) st.2) st).2 = st.2 := by
    intro L
    induction L with
    | nil => intro st; rfl
    | cons i L ih =>
      intro st
      rw [List.foldl_cons, ih]
      simp [b2j, isPopular, b2jAll, flmStep]
  dsimp only
  rw [hfold]
  have hl : extLeft a [] alo blo alo blo = 0 := by
    unfold extLeft
    cases alo with
    | zero => rfl
    | succ k => simp [extLeftF]
  rw [hl]
  have hr : extRight a [] ahi bhi (alo - 0) (blo - 0) (0 + 0) = 0 := by
    unfold extRight
    cases hf : ahi - (alo - 0 + (0 + 0)) with
    | zero => rfl
    | succ k => simp [extRightF, charsEq_nil_right]
  rw [hr]
  simp

/-- With an empty `a`, `find_longest_match` on the full window finds nothing. -/
theorem flm_nil_left (b : List Char) (blo bhi : Nat) :
    flm [] b 0 0 blo bhi = (0, blo, 0) := by
  unfold flm
  dsimp only
  rw [show (0 : Nat) - 0 = 0 from rfl, List.range'_zero, List.foldl_nil]
  have hl : extLeft [] b 0 blo 0 blo = 0 := by
    unfold extLeft
    rfl
  rw [hl]
  have hr : extRight [] b 0 bhi (0 - 0) (blo - 0) (0 + 0) = 0 := by
    unfold extRight
    cases hf : 0 - (0 - 0 + (0 + 0)) with
    | zero => rfl
    | succ k => simp [extRightF, charsEq_nil_left]
  rw [hr]
  simp

/-- The scorer maps a non-empty sequence against an empty one to 0. -/
theorem smScore_nil_right (a : List Char) (h : a ≠ []) : smScore a [] = 0 := by
  unfold smScore
  have hT : ¬ (a.length + ([] : List Char).length = 0) := by
    simpa [List.length_eq_zero] using h
  rw [if_neg hT]
  have hM : smTotalMatches a [] = 0 := by
    unfold smTotalMatches
    simp [smMatchesF, flm_nil_right]
  rw [hM]
  norm_num

/-- The scorer maps an empty sequence against a non-empty one to 0. -/
theorem smScore_nil_left (b : List Char) (h : b ≠ []) : smScore [] b = 0 := by
  unfold smScore
  have hT : ¬ (([] : List Char).length + b.length = 0) := by
    simpa [List.length_eq_zero] using h
  rw [if_neg hT]
  have hM : smTotalMatches [] b = 0 := by
    unfold smTotalMatches
    simp [smMatchesF, flm_nil_left]
  rw [hM]
  norm_num

/-- C8 amended: symmetry of the scorer does hold when either string is empty
(both orders give 0, or 1 for two empties), though not in general. -/
theorem claim8_symmetry_amended (a b : String) (h : a = "" ∨ b = "") :
    smScoreStr a b = smScoreStr b a := by
  rcases h with h | h
  · subst h
    by_cases hb : b = ""
    · subst hb
      rfl
    · have hd : b.data ≠ [] := by
        intro hd
        exact hb (string_eq_of_data_eq hd)
      unfold smScoreStr
      rw [show ("" : String).data = ([] : List Char) from rfl]
      rw [smScore_nil_left b.data hd, smScore_nil_right b.data hd]
  · subst h
    by_cases ha : a = ""
    · subst ha
      rfl
    · have hd : a.data ≠ [] := by
        intro hd
        exact ha (string_eq_of_data_eq hd)
      unfold smScoreStr
      rw [show ("" : String).data = ([] : List Char) from rfl]
      rw [smScore_nil_left a.data hd, smScore_nil_right a.data hd]

/-- Witness for C8 amended at a concrete input. -/
theorem claim8_symmetry_amended_witness :
    smScoreStr "" "ab" = smScoreStr "ab" "" :=
  claim8_symmetry_amended "" "ab" (Or.inl rfl)

/-- C3 amended: `check` is a total function of its inputs (the embedding is a
Lean function, mirroring that the source raises no exception on any input); an
empty candidate list yields the NoMatch result for every query, and an empty
query yields the NoMatch result provided no candidate row has a field that
normalizes to the empty string (a row whose name and address both
strict-normalize to "" is returned as an exact match for the empty query, and
a field that soft-normalizes to "" scores 1 against the empty query). -/
theorem claim3_empty_inputs_amended :
    (∀ nameIn addrIn : String, check nameIn addrIn [] = ⟨"none", none, []⟩) ∧
    (∀ rows : List Row,
      (∀ r ∈ rows, normalize_soft r.name ≠ "" ∧ normalize_soft r.addr ≠ "" ∧
        (normalize_strict r.name ≠ "" ∨ normalize_address r.addr ≠ "")) →
      check "" "" rows = ⟨"none", none, []⟩) := by
  constructor
  · intro nameIn addrIn
    rfl
  · intro rows h
    have hfind : rows.find? (exactPred (normalize_strict "") (normalize_address "")) = none := by
      rw [List.find?_eq_none]
      intro r hr
      have h3 := (h r hr).2.2
      unfold exactPred
      intro hco
      rw [Bool.and_eq_true, beq_iff_eq, beq_iff_eq] at hco
      rcases h3 with h3 | h3
      · exact h3 (by simpa using hco.1)
      · exact h3 (by simpa using hco.2)
    have hcands : scoredCands "" "" rows = [] := by
      unfold scoredCands
      rw [List.filterMap_eq_nil_iff]
      intro r hr
      have h1 := (h r hr).1
      have h2 := (h r hr).2.1
      have hn : nameSim "" r = 0 := by
        unfold nameSim smScoreStr
        rw [show (normalize_soft "").data = ([] : List Char) from rfl]
        refine smScore_nil_right _ (fun hd => h1 (string_eq_of_data_eq hd))
      have ha : addrSim "" r = 0 := by
        unfold addrSim smScoreStr
        rw [show (normalize_soft "").data = ([] : List Char) from rfl]
        refine smScore_nil_right _ (fun hd => h2 (string_eq_of_data_eq hd))
      have hc : combinedScore "" "" r = 0 := by
        unfold combinedScore
        rw [hn, ha]
        have h0 : ((0 : ℚ) * 0.6 + 0 * 0.4) * 10000 = ((0 : ℤ) : ℚ) := by norm_num
        rw [pyRound4_eq_of_mul _ _ h0]
        norm_num
      have hq : qualifies "" "" r = false := by
        unfold qualifies
        rw [hn, ha, hc]
        simp only [Bool.or_eq_false_iff, decide_eq_false_iff_not]
        norm_num
      simp [hq]
    unfold check
    rw [hfind]
    dsimp only
    rw [hcands]
    rfl

/-- Witness for C3 amended at a concrete input. -/
theorem claim3_empty_inputs_amended_witness :
    check "" "" [(⟨"Hotel", "Addr", "c"⟩ : Row)] = ⟨"none", none, []⟩ :=
  claim3_empty_inputs_amended.2 [(⟨"Hotel", "Addr", "c"⟩ : Row)] (by decide)

/-- The replacement scan is independent of the fuel once the fuel covers the
length of the scanned list. -/
theorem pyReplaceF_fuel (p : Char) (ps rep : List Char) :
    ∀ (f1 : Nat), ∀ (f2 : Nat) (l : List Char), l.length ≤ f1 → l.length ≤ f2 →
      pyReplaceF p ps rep f1 l = pyReplaceF p ps rep f2 l := by
  intro f1
  induction f1 with
  | zero =>
    intro f2 l h1 h2
    have hl : l = [] := by
      cases l with
      | nil => rfl
      | cons c t => simp at h1
    subst hl
    cases f2 <;> rfl
  | succ f1 ih =>
    intro f2 l h1 h2
    cases l with
    | nil => cases f2 <;> rfl
    | cons c t =>
      cases f2 with
      | zero => simp at h2
      | succ f2 =>
        simp only [List.length_cons] at h1 h2
        simp only [pyReplaceF]
        by_cases hp : (p :: ps).isPrefixOf (c :: t) = true
        · rw [if_pos hp, if_pos hp]
          refine congrArg (rep ++ ·) (ih f2 (t.drop ps.length) ?_ ?_) <;>
            simp only [List.length_drop] <;> omega
        · rw [if_neg hp, if_neg hp]
          refine congrArg (c :: ·) (ih f2 t ?_ ?_) <;> omega

/-- Unfolding equation of `pyReplace` on a cons cell. -/
theorem pyReplace_cons (p : Char) (ps rep : List Char) (c : Char) (t : List Char) :
    pyReplace p ps rep (c :: t) =
      if (p :: ps).isPrefixOf (c :: t) then rep ++ pyReplace p ps rep (t.drop ps.length)
      else c :: pyReplace p ps rep t := by
  unfold pyReplace
  rw [show (c :: t).length = t.length + 1 from rfl]
  simp only [pyReplaceF]
  by_cases hp : (p :: ps).isPrefixOf (c :: t) = true
  · rw [if_pos hp, if_pos hp]
    refine congrArg (rep ++ ·) (pyReplaceF_fuel p ps rep _ _ _ ?_ ?_) <;>
      simp only [List.length_drop] <;> omega
  · rw [if_neg hp, if_neg hp]

/-- A replacement whose pattern contains a character absent from the scanned
list never fires. -/
theorem pyReplace_no_occurrence {c0 p : Char} {ps rep : List Char} (hc : c0 ∈ p :: ps) :
    ∀ l : List Char, c0 ∉ l → pyReplace p ps rep l = l := by
  intro l
  induction l with
  | nil => intro _; rfl
  | cons c t ih =>
    intro hnm
    rw [pyReplace_cons]
    have hpre : ¬ ((p :: ps).isPrefixOf (c :: t) = true) := by
      intro hp
      exact hnm ((List.isPrefixOf_iff_prefix.mp hp).sublist.subset hc)
    rw [if_neg hpre, ih (fun hm => hnm (List.mem_cons_of_mem _ hm))]

/-- Characters of the whitespace-collapsed list come from the input or are the
replacement space. -/
theorem mem_collapseWSAux {x : Char} :
    ∀ (l : List Char) (fl : Bool), x ∈ collapseWSAux fl l → x = ' ' ∨ x ∈ l := by
  intro l
  induction l with
  | nil => intro fl h; simp [collapseWSAux] at h
  | cons c t ih =>
    intro fl h
    rw [collapseWSAux] at h
    by_cases hsp : isPySpace c = true
    · rw [if_pos hsp] at h
      cases fl with
      | true =>
        rcases ih true h with h1 | h1
        · exact Or.inl h1
        · exact Or.inr (List.mem_cons_of_mem _ h1)
      | false =>
        rcases List.mem_cons.mp h with h1 | h1
        · exact Or.inl h1
        · rcases ih true h1 with h2 | h2
          · exact Or.inl h2
          · exact Or.inr (List.mem_cons_of_mem _ h2)
    · rw [if_neg hsp] at h
      rcases List.mem_cons.mp h with h1 | h1
      · exact Or.inr (h1 ▸ List.mem_cons_self _ _)
      · rcases ih false h1 with h2 | h2
        · exact Or.inl h2
        · exact Or.inr (List.mem_cons_of_mem _ h2)

/-- Characters of the stripped list come from the input. -/
theorem mem_pyStrip {x : Char} {l : List Char} (h : x ∈ pyStrip l) : x ∈ l := by
  unfold pyStrip at h
  rw [List.mem_reverse] at h
  have h1 := (List.dropWhile_sublist isPySpace).subset h
  rw [List.mem_reverse] at h1
  exact (List.dropWhile_sublist isPySpace).subset h1

/-- The strict normalizer never outputs a full stop: the punctuation pass maps
it (and every non-word character) to a space. -/
theorem dot_not_mem_normalize_strict (s : String) : '.' ∉ (normalize_strict s).data := by
  intro h
  unfold normalize_strict cleanPunctKeepWords collapseWS at h
  dsimp only at h
  have h1 := mem_pyStrip h
  rcases mem_collapseWSAux _ _ h1 with h2 | h2
  · exact absurd h2 (by decide)
  · rw [List.mem_map] at h2
    obtain ⟨c, _, hfc⟩ := h2
    by_cases hk : (pyIsWordChar c || c == ' ') = true
    · rw [if_pos hk] at hfc
      subst hfc
      exact absurd hk (by decide)
    · rw [if_neg hk] at hfc
      exact absurd hfc (by decide)

/-- Base case of the lockstep scan: at the occurrence itself, replacing
"ქ " by "ქუჩა " in "ქ " ++ S gives literally "ქუჩა " ++ S with the scan
resuming at S, which is exactly the scan of "ქუჩა " ++ S (no match fits
inside "ქუჩა "). -/
theorem pyReplace_q_space_base (S : List Char) :
    pyReplace 'ქ' [' '] ('ქ' :: 'უ' :: 'ჩ' :: 'ა' :: ' ' :: []) ('ქ' :: ' ' :: S) =
    pyReplace 'ქ' [' '] ('ქ' :: 'უ' :: 'ჩ' :: 'ა' :: ' ' :: []) ('ქ' :: 'უ' :: 'ჩ' :: 'ა' :: ' ' :: S) := by
  simp [pyReplace_cons, List.isPrefixOf]

/-- Lockstep scan: the replacement of "ქ " by "ქუჩა " maps `P ++ "ქ " ++ S`
and `P ++ "ქუჩა " ++ S` to the same string, for every prefix `P` and suffix
`S` (the two scans agree on `P` because a match there looks only at the first
two characters, and both middles start with the same character). -/
theorem pyReplace_q_space :
    ∀ (n : Nat) (P S : List Char), P.length ≤ n →
      pyReplace 'ქ' [' '] ('ქ' :: 'უ' :: 'ჩ' :: 'ა' :: ' ' :: []) (P ++ 'ქ' :: ' ' :: S) =
      pyReplace 'ქ' [' '] ('ქ' :: 'უ' :: 'ჩ' :: 'ა' :: ' ' :: []) (P ++ 'ქ' :: 'უ' :: 'ჩ' :: 'ა' :: ' ' :: S) := by
  intro n
  induction n with
  | zero =>
    intro P S hP
    have hnil : P = [] := by
      cases P with
      | nil => rfl
      | cons c t => simp at hP
    subst hnil
    simpa using pyReplace_q_space_base S
  | succ n ih =>
    intro P S hP
    cases P with
    | nil => simpa using pyReplace_q_space_base S
    | cons c P1 =>
      cases P1 with
      | nil =>
        simp only [List.cons_append, List.nil_append]
        conv_lhs => rw [pyReplace_cons]
        conv_rhs => rw [pyReplace_cons]
        have hc1 : (('ქ' :: [' ']).isPrefixOf (c :: 'ქ' :: ' ' :: S)) = false := by
          simp [List.isPrefixOf]
        have hc2 : (('ქ' :: [' ']).isPrefixOf (c :: 'ქ' :: 'უ' :: 'ჩ' :: 'ა' :: ' ' :: S)) = false := by
          simp [List.isPrefixOf]
        rw [hc1, hc2]
        simp only [Bool.false_eq_true, if_false]
        exact congrArg (c :: ·) (by simpa using ih [] S (Nat.zero_le n))
      | cons d P2 =>
        simp only [List.cons_append]
        conv_lhs => rw [pyReplace_cons]
        conv_rhs => rw [pyReplace_cons]
        by_cases hcd : (('ქ' :: [' ']).isPrefixOf (c :: d :: (P2 ++ 'ქ' :: ' ' :: S))) = true
        · have hcd2 : (('ქ' :: [' ']).isPrefixOf
              (c :: d :: (P2 ++ 'ქ' :: 'უ' :: 'ჩ' :: 'ა' :: ' ' :: S))) = true := by
            simp [List.isPrefixOf] at hcd ⊢
            exact hcd
          rw [if_pos hcd, if_pos hcd2]
          simp only [List.length_cons, List.length_nil, List.drop_succ_cons, List.drop_zero]
          exact congrArg _ (ih P2 S (by simp only [List.length_cons] at hP; omega))
        · have hcd2 : ¬ (('ქ' :: [' ']).isPrefixOf
              (c :: d :: (P2 ++ 'ქ' :: 'უ' :: 'ჩ' :: 'ა' :: ' ' :: S))) = true := by
            intro hx
            apply hcd
            simp [List.isPrefixOf] at hx ⊢
            exact hx
          rw [if_neg hcd, if_neg hcd2]
          exact congrArg (c :: ·) (ih (d :: P2) S (by simp only [List.length_cons] at hP ⊢; omega))

/-- Unfolding of `pyReplaceStr` when the pattern data is known. -/
theorem pyReplaceStr_data (s : String) (p : Char) (ps : List Char) (pat rep : String)
    (hp : pat.data = p :: ps) :
    pyReplaceStr s pat rep = ⟨pyReplace p ps rep.data s.data⟩ := by
  unfold pyReplaceStr
  rw [hp]

/-- A replacement whose pattern contains a character absent from the subject
string leaves the string unchanged. -/
theorem pyReplaceStr_eq_self {s pat rep : String} (c0 : Char)
    (hc : c0 ∈ pat.data) (h : c0 ∉ s.data) : pyReplaceStr s pat rep = s := by
  unfold pyReplaceStr
  cases hp : pat.data with
  | nil => rfl
  | cons p ps =>
    refine string_eq_of_data_eq ?_
    have hmem : c0 ∈ p :: ps := hp ▸ hc
    simpa using pyReplace_no_occurrence hmem s.data h

/-- C9 amended: the abbreviation equivalence does hold whenever the
abbreviation occurs as a word followed by a space and more text: if the strict
normalizations of two addresses are identical except that one reads "ქ " (the
normalized form of the abbreviation "ქ.") where the other reads "ქუჩა ", then
`normalize_address` maps both addresses to the same string; only the
end-of-string occurrence (see the counterexample) escapes the expansion. -/
theorem claim9_abbrev_amended (x y : String) (P S : List Char)
    (hx : (normalize_strict x).data = P ++ 'ქ' :: ' ' :: S)
    (hy : (normalize_strict y).data = P ++ 'ქ' :: 'უ' :: 'ჩ' :: 'ა' :: ' ' :: S) :
    normalize_address x = normalize_address y := by
  unfold normalize_address
  simp only [addrEquiv, List.foldl_cons, List.foldl_nil]
  have hr1x : pyReplaceStr (normalize_strict x) "ქ." "ქუჩა" = normalize_strict x :=
    pyReplaceStr_eq_self '.' (by decide) (dot_not_mem_normalize_strict x)
  have hr1y : pyReplaceStr (normalize_strict y) "ქ." "ქუჩა" = normalize_strict y :=
    pyReplaceStr_eq_self '.' (by decide) (dot_not_mem_normalize_strict y)
  have h2 : pyReplaceStr (normalize_strict x) "ქ " "ქუჩა " =
      pyReplaceStr (normalize_strict y) "ქ " "ქუჩა " := by
    rw [pyReplaceStr_data _ 'ქ' [' '] _ _ rfl, pyReplaceStr_data _ 'ქ' [' '] _ _ rfl]
    refine congrArg String.mk ?_
    rw [hx, hy]
    rw [show ("ქუჩა " : String).data = 'ქ' :: 'უ' :: 'ჩ' :: 'ა' :: ' ' :: [] from rfl]
    exact pyReplace_q_space P.length P S (Nat.le_refl _)
  rw [hr1x, hr1y, h2]

/-- Witness for C9 amended: the interior abbreviation "ქ. 1" versus the full
word "ქუჩა 1" normalize to the same address. -/
theorem claim9_abbrev_amended_witness :
    normalize_address "ხიმშიაშვილის ქ. 1" = normalize_address "ხიმშიაშვილის ქუჩა 1" :=
  claim9_abbrev_amended "ხიმშიაშვილის ქ. 1" "ხიმშიაშვილის ქუჩა 1"
    ("ხიმშიაშვილის ".data) ['1'] (by decide) (by decide)
